import Mathlib

/-!
Shallow embedding of `src/hpx/lcos/condition.hpp`.

The file defines two classes:

* `hpx::lcos::detail::condition` — the synchronization core.  Its only state
  is `boost::lockfree::fifo<thread_id_type> queue_`, a linearizable FIFO of
  thread ids.  Operations:
  - `wait(self)`: `queue_.enqueue(self.get_thread_id()); self.yield(suspended);`
  - `notify_one(self)`: `if (queue_.dequeue(&id)) set_state(self, id, pending);`
  - `notify_all(self)`: `while (queue_.dequeue(&id)) set_state(self, id, pending);`
  - `set_event(self, appl)`: calls `notify_one(self)`
  - `set_error(self, appl, code, msg)`: `HPX_THROW_EXCEPTION(code, msg);`
* `hpx::lcos::condition` — the public wrapper holding an intrusive pointer to
  the detail class; `wait` and `notify_one` forward to their namesakes, and
  `notify_all` forwards to `impl_->notify_one`.

We embed the state as a structure holding the FIFO contents (front of the
list = oldest entry = next to be dequeued; `enqueue` appends at the back) and
the ordered list of thread ids for which a `threads::set_state(_, id, pending)`
transition has been requested.  Thread ids are modelled as naturals.
-/

/-- Thread ids (`thread_id_type` in the source) are opaque tokens; we model
them as naturals. -/
abbrev thread_id_type := Nat

/-- State of one condition object: the contents of `queue_` (head = oldest)
together with the ordered log of ids transitioned to `pending` (runnable)
via `threads::set_state`. -/
structure CondState where
  queue : List thread_id_type
  notified : List thread_id_type
  deriving DecidableEq

namespace hpx.lcos.detail.condition

/-- State effect of `wait` (condition.hpp lines 103–107): enqueue the calling
thread's id at the back of `queue_`.  The subsequent `self.yield(suspended)`
suspends the caller; its position inside the body is modelled separately by
`wait_body`. -/
def wait (id : thread_id_type) (s : CondState) : CondState :=
  { s with queue := s.queue ++ [id] }

/-- `notify_one` (lines 109–114): dequeue once; when a token comes back,
request `set_state(id, pending)`; on an empty queue do nothing. -/
def notify_one (s : CondState) : CondState :=
  match s.queue with
  | [] => s
  | id :: rest => { queue := rest, notified := s.notified ++ [id] }

/-- The `while (queue_.dequeue(&id)) set_state(self, id, pending);` loop of
`notify_all` (lines 119–120), recursing on the remaining queue contents and
accumulating the `set_state` log. -/
def notify_all_loop :
    List thread_id_type → List thread_id_type →
      List thread_id_type × List thread_id_type
  | [], acc => ([], acc)
  | id :: rest, acc => notify_all_loop rest (acc ++ [id])

/-- `notify_all` (lines 116–121) of the detail class. -/
def notify_all (s : CondState) : CondState :=
  ⟨(notify_all_loop s.queue s.notified).1, (notify_all_loop s.queue s.notified).2⟩

/-- Number of successful-dequeue iterations performed by the `notify_all`
loop on a given queue content (one recursive call per dequeued token). -/
def notify_all_iters : List thread_id_type → Nat
  | [] => 0
  | _ :: rest => notify_all_iters rest + 1

/-- `set_event` (lines 124–128): the action implementation just calls
`notify_one(self)`. -/
def set_event (s : CondState) : CondState :=
  notify_one s

/-- `set_error` (lines 130–135): `HPX_THROW_EXCEPTION(code, msg)` — the fault
is raised unconditionally and the state is left untouched.  We return the
unchanged state paired with the raised fault. -/
def set_error (code : Nat) (msg : String) (s : CondState) :
    CondState × Option (Nat × String) :=
  (s, some (code, msg))

end hpx.lcos.detail.condition

/-- Micro-steps of the body of `wait` (lines 103–107): the enqueue into
`queue_` and the `self.yield(suspended)` suspension point. -/
inductive WaitEvent
  | enqueue (id : thread_id_type)
  | suspendSelf
  deriving DecidableEq

/-- Recognizer for the suspension micro-step. -/
def WaitEvent.isSuspend : WaitEvent → Bool
  | WaitEvent.suspendSelf => true
  | _ => false

/-- Recognizer for the enqueue micro-step. -/
def WaitEvent.isEnqueue : WaitEvent → Bool
  | WaitEvent.enqueue _ => true
  | _ => false

/-- The body of `wait` as the sequence of its observable micro-steps, in
source order: first `queue_.enqueue(self.get_thread_id())` (line 105), then
`self.yield(threads::suspended)` (line 106). -/
def wait_body (id : thread_id_type) : List WaitEvent :=
  [WaitEvent.enqueue id, WaitEvent.suspendSelf]

namespace hpx.lcos.condition

/-- Public wrapper `wait` (lines 157–160): forwards to `impl_->wait`. -/
def wait (id : thread_id_type) (s : CondState) : CondState :=
  detail.condition.wait id s

/-- Public wrapper `notify_one` (lines 162–165): forwards to
`impl_->notify_one`. -/
def notify_one (s : CondState) : CondState :=
  detail.condition.notify_one s

/-- Public wrapper `notify_all` (lines 167–170): the source forwards to
`impl_->notify_one` (not to `impl_->notify_all`). -/
def notify_all (s : CondState) : CondState :=
  detail.condition.notify_one s

end hpx.lcos.condition

/-- Atomic operations that can act on a condition's state: a `wait` by task
`id` (its enqueue is one linearizable FIFO operation), a whole `notify_one`,
and a whole `notify_all`. -/
inductive Op
  | wait (id : thread_id_type)
  | notifyOne
  | notifyAll
  deriving DecidableEq

/-- Effect of one operation on the state. -/
def runOp (s : CondState) : Op → CondState
  | Op.wait id => hpx.lcos.detail.condition.wait id s
  | Op.notifyOne => hpx.lcos.detail.condition.notify_one s
  | Op.notifyAll => hpx.lcos.detail.condition.notify_all s

/-- Run a trace of operations from a starting state. -/
def run (tr : List Op) (s : CondState) : CondState :=
  tr.foldl runOp s

/-- The ids enqueued by the `wait` operations of a trace, in trace order. -/
def waitIds : List Op → List thread_id_type
  | [] => []
  | Op.wait id :: tr => id :: waitIds tr
  | Op.notifyOne :: tr => waitIds tr
  | Op.notifyAll :: tr => waitIds tr

/-- Micro-steps interleaved with a running `notify_all` invocation: `deq` is
one execution of the loop's `queue_.dequeue(&id)` test (lines 119–120) by the
notifier, `enq id` is a concurrent `wait` enqueueing `id`. -/
inductive NAStep
  | deq
  | enq (id : thread_id_type)
  deriving DecidableEq

/-- State of a `notify_all` invocation in progress: the shared queue, the ids
this invocation has transitioned to `pending` so far, and whether its loop
has already terminated (its dequeue returned false). -/
structure NAState where
  queue : List thread_id_type
  notified : List thread_id_type
  finished : Bool
  deriving DecidableEq

/-- One micro-step of the interleaved execution of `notify_all`. -/
def naStep (s : NAState) : NAStep → NAState
  | NAStep.enq id => { s with queue := s.queue ++ [id] }
  | NAStep.deq =>
    if s.finished then s
    else
      match s.queue with
      | [] => { s with finished := true }
      | id :: rest => { queue := rest, notified := s.notified ++ [id], finished := false }

/-- Run a sequence of interleaved micro-steps. -/
def naRun (s : NAState) (tr : List NAStep) : NAState :=
  tr.foldl naStep s

/-- Formalization of the claimed atomic capture of `notify_all`: the set of
tokens a `notify_all` invocation wakes would be exactly the queue contents at
its entry (the capture point), so an id not queued at entry would never be
notified by that invocation, whatever interleaving of concurrent enqueues and
loop iterations follows. -/
def notify_all_atomic_capture_claim : Prop :=
  ∀ (q0 : List thread_id_type) (tr : List NAStep) (id : thread_id_type),
    id ∉ q0 → id ∉ (naRun ⟨q0, [], false⟩ tr).notified

/-- Reachable condition states, under the usage discipline that a task calls
`wait` only while it is not already suspended in the queue (a task suspended
by `wait` cannot run, hence cannot call `wait` again before being dequeued). -/
inductive Reachable : CondState → Prop
  | init : Reachable ⟨[], []⟩
  | wait (s : CondState) (id : thread_id_type) (h : Reachable s)
      (hq : id ∉ s.queue) : Reachable (hpx.lcos.detail.condition.wait id s)
  | notifyOne (s : CondState) (h : Reachable s) :
      Reachable (hpx.lcos.detail.condition.notify_one s)
  | notifyAll (s : CondState) (h : Reachable s) :
      Reachable (hpx.lcos.detail.condition.notify_all s)

/-- The `notify_all` loop moves the whole queue, in order, onto the end of
the accumulated `set_state` log. -/
theorem notify_all_loop_eq (q acc : List thread_id_type) :
    hpx.lcos.detail.condition.notify_all_loop q acc = ([], acc ++ q) := by
  induction q generalizing acc with
  | nil => simp [hpx.lcos.detail.condition.notify_all_loop]
  | cons a q ih => simp [hpx.lcos.detail.condition.notify_all_loop, ih]

/-- Closed form of the detail `notify_all`: it empties the queue and appends
its contents, in order, to the `set_state` log. -/
theorem notify_all_eq (s : CondState) :
    hpx.lcos.detail.condition.notify_all s = ⟨[], s.notified ++ s.queue⟩ := by
  simp [hpx.lcos.detail.condition.notify_all, notify_all_loop_eq]

/-- C1: the claim says a single `notify_all` on the public `hpx::lcos::condition`
class makes all queued tokens runnable in capture order and empties the queue.
The public wrapper (lines 167–170) instead forwards to `impl_->notify_one`:
with queue [0, 1, 2] it wakes only token 0 and leaves [1, 2] queued, whereas
the detail class's own `notify_all` (lines 116–121) does wake all three in
order and empties the queue — the wrapper's forwarding is the slip. -/
theorem notify_all_public_forwards_single_wakeup :
    hpx.lcos.condition.notify_all ⟨[0, 1, 2], []⟩ = ⟨[1, 2], [0]⟩ ∧
    hpx.lcos.detail.condition.notify_all ⟨[0, 1, 2], []⟩ = ⟨[], [0, 1, 2]⟩ :=
  ⟨rfl, rfl⟩

/-- C2 counterexample: `notify_all` in the detail class is a drain loop, not
an atomic capture.  Starting from queue [0], the interleaving dequeue 0,
enqueue 1, dequeue 1 makes the invocation notify token 1 even though 1 was
enqueued strictly after the invocation (hence after any capture point) began,
refuting the atomic-capture claim. -/
theorem notify_all_capture_counterexample : ¬ notify_all_atomic_capture_claim := by
  intro h
  exact h [0] [NAStep.deq, NAStep.enq 1, NAStep.deq] 1 (by decide) (by decide)

/-- C2 as amended: once the `notify_all` loop has terminated (its dequeue
observed an empty queue), no later micro-step — in particular no later
enqueue by a concurrent `wait` — adds anything to the set of tokens notified
by that invocation. -/
theorem notify_all_after_loop_unaffected (s : NAState) (tr : List NAStep)
    (h : s.finished = true) : (naRun s tr).notified = s.notified := by
  induction tr generalizing s with
  | nil => rfl
  | cons st tr ih =>
    cases st with
    | deq =>
      have hs : naStep s NAStep.deq = s := by simp [naStep, h]
      calc (naRun s (NAStep.deq :: tr)).notified
          = (naRun (naStep s NAStep.deq) tr).notified := rfl
        _ = s.notified := by rw [hs]; exact ih s h
    | enq id =>
      have h1 : (naStep s (NAStep.enq id)).finished = true := by
        simp [naStep, h]
      have h2 : (naStep s (NAStep.enq id)).notified = s.notified := by
        simp [naStep]
      calc (naRun s (NAStep.enq id :: tr)).notified
          = (naRun (naStep s (NAStep.enq id)) tr).notified := rfl
        _ = (naStep s (NAStep.enq id)).notified := ih _ h1
        _ = s.notified := h2

/-- Witness for the amended C2 theorem at a concrete input: after the loop
has finished, an enqueue of 5 followed by another dequeue step leaves the
invocation's notified set unchanged. -/
theorem notify_all_after_loop_unaffected_witness :
    (⟨[], [], true⟩ : NAState).finished = true ∧
    (naRun ⟨[], [], true⟩ [NAStep.enq 5, NAStep.deq]).notified =
      (⟨[], [], true⟩ : NAState).notified :=
  ⟨rfl, notify_all_after_loop_unaffected ⟨[], [], true⟩ [NAStep.enq 5, NAStep.deq] rfl⟩

/-- C3: `notify_one` dequeues the front (oldest) token of the FIFO and
requests its transition to runnable; after wait(0); wait(1); wait(2), the
first `notify_one` wakes 0 leaving queue [1, 2], and a second wakes 1 leaving
queue [2]. -/
theorem notify_one_fifo :
    (∀ (a : thread_id_type) (rest p : List thread_id_type),
      hpx.lcos.detail.condition.notify_one ⟨a :: rest, p⟩ = ⟨rest, p ++ [a]⟩) ∧
    run [Op.wait 0, Op.wait 1, Op.wait 2, Op.notifyOne] ⟨[], []⟩ = ⟨[1, 2], [0]⟩ ∧
    run [Op.wait 0, Op.wait 1, Op.wait 2, Op.notifyOne, Op.notifyOne] ⟨[], []⟩ =
      ⟨[2], [0, 1]⟩ :=
  ⟨fun _ _ _ => rfl, rfl, rfl⟩

/-- C4: `notify_one` on an empty queue is a no-op — the queue stays empty, no
`set_state` transition is requested (the notified log is unchanged), and no
error is raised (the operation is total and returns normally). -/
theorem notify_one_empty_noop :
    ∀ (p : List thread_id_type),
      hpx.lcos.detail.condition.notify_one ⟨[], p⟩ = ⟨[], p⟩ :=
  fun _ => rfl

/-- C5: the body of `wait` contains exactly one suspension micro-step, its
first micro-step is the enqueue, and the enqueue occurs strictly before the
suspension. -/
theorem wait_enqueue_before_suspend :
    ∀ (id : thread_id_type),
      ((wait_body id).filter WaitEvent.isSuspend).length = 1 ∧
      (wait_body id).findIdx WaitEvent.isEnqueue = 0 ∧
      (wait_body id).findIdx WaitEvent.isEnqueue <
        (wait_body id).findIdx WaitEvent.isSuspend :=
  fun _ => ⟨rfl, rfl, Nat.zero_lt_one⟩

/-- C8: `set_error` raises the fault carrying its code and message
unconditionally — for every state of the wait queue — and leaves both the
queue and the `set_state` log untouched. -/
theorem set_error_unconditional_queue_unchanged :
    ∀ (code : Nat) (msg : String) (s : CondState),
      (hpx.lcos.detail.condition.set_error code msg s).1.queue = s.queue ∧
      (hpx.lcos.detail.condition.set_error code msg s).1.notified = s.notified ∧
      (hpx.lcos.detail.condition.set_error code msg s).2 = some (code, msg) :=
  fun _ _ _ => ⟨rfl, rfl, rfl⟩

/-- C9: the `set_event` action has exactly the effect of one `notify_one`
call on every starting state — equal resulting queue and equal `set_state`
log, hence the same woken token if any. -/
theorem set_event_eq_notify_one :
    ∀ s : CondState,
      hpx.lcos.detail.condition.set_event s = hpx.lcos.detail.condition.notify_one s :=
  fun _ => rfl

/-- C10: the `notify_all` dequeue loop of the detail class terminates on
every finite queue when no enqueues intervene: each iteration removes exactly
the front token and requests exactly one runnable transition for it, and the
loop performs exactly as many successful-dequeue iterations as there were
queued tokens, ending with an empty queue and all tokens logged in order. -/
theorem notify_all_terminates_drains :
    ∀ (q p : List thread_id_type),
      hpx.lcos.detail.condition.notify_all ⟨q, p⟩ = ⟨[], p ++ q⟩ ∧
      hpx.lcos.detail.condition.notify_all_iters q = q.length ∧
      (∀ (a : thread_id_type) (rest : List thread_id_type),
        hpx.lcos.detail.condition.notify_all ⟨a :: rest, p⟩ =
          hpx.lcos.detail.condition.notify_all ⟨rest, p ++ [a]⟩) := by
  intro q p
  refine ⟨by simp [notify_all_eq], ?_, ?_⟩
  · induction q with
    | nil => rfl
    | cons a q ih => simp [hpx.lcos.detail.condition.notify_all_iters, ih]
  · intro a rest
    simp [notify_all_eq]

/-- Conservation law over a trace: every occurrence of an id in the queue or
in the `set_state` log of the final state is accounted for by its occurrences
in the starting state and by the `wait` operations of the trace — no token is
lost or duplicated by any operation. -/
theorem count_conservation (id : thread_id_type) (tr : List Op) (s : CondState) :
    (run tr s).queue.count id + (run tr s).notified.count id =
      s.queue.count id + s.notified.count id + (waitIds tr).count id := by
  induction tr generalizing s with
  | nil => simp [run, waitIds]
  | cons op tr ih =>
    obtain ⟨q, n⟩ := s
    cases op with
    | wait i =>
      have h := ih ⟨q ++ [i], n⟩
      have hr : run (Op.wait i :: tr) ⟨q, n⟩ = run tr ⟨q ++ [i], n⟩ := rfl
      have hw : waitIds (Op.wait i :: tr) = [i] ++ waitIds tr := rfl
      rw [hr, h, hw]
      simp only [List.count_append]
      omega
    | notifyOne =>
      cases q with
      | nil =>
        have h := ih ⟨[], n⟩
        have hr : run (Op.notifyOne :: tr) ⟨[], n⟩ = run tr ⟨[], n⟩ := rfl
        have hw : waitIds (Op.notifyOne :: tr) = waitIds tr := rfl
        rw [hr, h, hw]
      | cons a rest =>
        have h := ih ⟨rest, n ++ [a]⟩
        have hr : run (Op.notifyOne :: tr) ⟨a :: rest, n⟩ = run tr ⟨rest, n ++ [a]⟩ := rfl
        have hw : waitIds (Op.notifyOne :: tr) = waitIds tr := rfl
        have hc : a :: rest = [a] ++ rest := rfl
        rw [hr, h, hw, hc]
        simp only [List.count_append]
        omega
    | notifyAll =>
      have h := ih ⟨[], n ++ q⟩
      have hr : run (Op.notifyAll :: tr) ⟨q, n⟩ = run tr ⟨[], n ++ q⟩ := by
        show run tr (hpx.lcos.detail.condition.notify_all ⟨q, n⟩) = run tr ⟨[], n ++ q⟩
        rw [notify_all_eq]
      have hw : waitIds (Op.notifyAll :: tr) = waitIds tr := rfl
      rw [hr, h, hw]
      simp only [List.count_append, List.count_nil]
      omega

/-- Each single operation only ever appends to the `set_state` log: a token
already transitioned to runnable is never taken back. -/
theorem runOp_notified_mono (s : CondState) (op : Op) :
    ∃ l, (runOp s op).notified = s.notified ++ l := by
  obtain ⟨q, n⟩ := s
  cases op with
  | wait i => exact ⟨[], by simp [runOp, hpx.lcos.detail.condition.wait]⟩
  | notifyOne =>
    cases q with
    | nil => exact ⟨[], by simp [runOp, hpx.lcos.detail.condition.notify_one]⟩
    | cons a rest => exact ⟨[a], rfl⟩
  | notifyAll => exact ⟨q, by simp [runOp, notify_all_eq]⟩

/-- Over any trace the `set_state` log only grows: no waiter regresses after
being notified. -/
theorem run_notified_mono (tr : List Op) (s : CondState) :
    ∃ l, (run tr s).notified = s.notified ++ l := by
  induction tr generalizing s with
  | nil => exact ⟨[], by simp [run]⟩
  | cons op tr ih =>
    obtain ⟨l1, h1⟩ := runOp_notified_mono s op
    obtain ⟨l2, h2⟩ := ih (runOp s op)
    refine ⟨l1 ++ l2, ?_⟩
    have hr : run (op :: tr) s = run tr (runOp s op) := rfl
    rw [hr, h2, h1, List.append_assoc]

/-- C6: over every interleaving of operations in which each task id issues at
most one `wait` (its ids are pairwise distinct), every token that appears in
the `set_state` log was enqueued by exactly one `wait` of the trace, no token
is notified more than once, and the log only ever grows (no regress after
notification). -/
theorem notified_unique_and_enqueued (tr : List Op) (h : (waitIds tr).Nodup) :
    (∀ id, (run tr ⟨[], []⟩).notified.count id ≤ 1) ∧
    (∀ id, id ∈ (run tr ⟨[], []⟩).notified → (waitIds tr).count id = 1) ∧
    (∀ (s : CondState) (tr2 : List Op), ∃ l, (run tr2 s).notified = s.notified ++ l) := by
  have key : ∀ id, (run tr ⟨[], []⟩).queue.count id +
      (run tr ⟨[], []⟩).notified.count id = (waitIds tr).count id := by
    intro id
    simpa using count_conservation id tr ⟨[], []⟩
  have hle : ∀ id, (waitIds tr).count id ≤ 1 :=
    List.nodup_iff_count_le_one.mp h
  refine ⟨?_, ?_, fun s tr2 => run_notified_mono tr2 s⟩
  · intro id
    have h1 := key id
    have h2 := hle id
    omega
  · intro id hid
    have h1 : 0 < (run tr ⟨[], []⟩).notified.count id :=
      List.count_pos_iff.mpr hid
    have h2 := key id
    have h3 := hle id
    omega

/-- Witness for C6 at a concrete trace: wait(0); wait(1); notify_one() has
pairwise-distinct wait ids and notifies token 0 at most once. -/
theorem notified_unique_and_enqueued_witness :
    (waitIds [Op.wait 0, Op.wait 1, Op.notifyOne]).Nodup ∧
    (run [Op.wait 0, Op.wait 1, Op.notifyOne] ⟨[], []⟩).notified.count 0 ≤ 1 :=
  ⟨by decide,
    (notified_unique_and_enqueued [Op.wait 0, Op.wait 1, Op.notifyOne] (by decide)).1 0⟩

/-- C7: at every reachable state — starting from the empty condition and
closed under `wait` (by a task not already suspended in the queue),
`notify_one` and `notify_all` — each token appears in the queue at most
once. -/
theorem queue_nodup_invariant (s : CondState) (h : Reachable s) : s.queue.Nodup := by
  induction h with
  | init => exact List.nodup_nil
  | wait s id h hq ih =>
    show (s.queue ++ [id]).Nodup
    rw [List.nodup_append]
    refine ⟨ih, List.nodup_singleton id, ?_⟩
    intro a ha hb
    rw [List.mem_singleton] at hb
    subst hb
    exact hq ha
  | notifyOne s h ih =>
    obtain ⟨q, n⟩ := s
    cases q with
    | nil => exact List.nodup_nil
    | cons a rest => exact List.Nodup.of_cons ih
  | notifyAll s h ih =>
    rw [notify_all_eq]
    exact List.nodup_nil

/-- Witness for C7 at a concrete state: the state reached by one wait(0) from
the empty condition has a duplicate-free queue. -/
theorem queue_nodup_invariant_witness :
    (hpx.lcos.detail.condition.wait 0 ⟨[], []⟩).queue.Nodup :=
  queue_nodup_invariant _ (Reachable.wait ⟨[], []⟩ 0 Reachable.init (by simp))
